import Mathlib

/-!
Verification development for the core of `main.go` (pointlander/auto):
an order-4 backoff Markov context model, an ensemble of 256 autoencoders
trained online with an Adam-style optimizer, and an autoregressive
generation loop.  The combinatorial parts (context shifting, frequency
tables, backoff lookup, the inverse-CDF sampler) are embedded as
computable functions over `Fin 256` / `List` / `ℚ`; the optimizer, which
needs a square root, is embedded over `ℝ`.  The external autodiff engine
(`github.com/pointlander/gradient/tf64`) is out of the repository and is
abstracted, per the specification's interface section, as a function from
the selected network's parameters and the input feature to a scalar loss
(a floating-point value, possibly NaN or an infinity) and a gradient set.
-/

set_option maxHeartbeats 1000000

/-- A byte value, the symbol alphabet of the model. -/
abbrev Byte := Fin 256

/-- The highest context length (`const order = 4` in main.go). -/
abbrev order : ℕ := 4

/-- A context tuple (`type Markov [order]byte`): a length-4 list of bytes.
Only the first `k+1` entries are active for the order-`k` sub-context; the
rest stay at their initial value, exactly as in the Go array. -/
abbrev Markov := List Byte

/-- The per-order working contexts (`[order]Markov` in main.go): one
length-4 tuple per order. -/
abbrev MarkovState := Fin order → Markov

/-- One pass of the shift loop in `Iterate` (main.go lines 96-101) and in
`load` (lines 148-151): `for ii, value := range markov[i][:i+1] {
markov[i][ii], state = state, value }`.  The carried `state` is the
displaced element; positions `n+1` onward are untouched. -/
def ringShift : ℕ → Byte → Markov → Markov
  | 0, s, l => s :: l.tail
  | _ + 1, _, [] => []
  | n + 1, s, a :: rest => s :: ringShift n a rest

/-- `Iterate` (main.go lines 95-102): advance every order's sub-context by
shifting the new symbol in at the front of its length-`(i+1)` prefix. -/
def Iterate (ms : MarkovState) (s : Byte) : MarkovState :=
  fun i => ringShift (i : ℕ) s (ms i)

/-- The shifted prefix is the new symbol followed by the old prefix with
its last element discarded; the suffix beyond the prefix is untouched. -/
theorem ringShift_take_drop (n : ℕ) :
    ∀ (s : Byte) (l : Markov), n < l.length →
      (ringShift n s l).take (n + 1) = s :: l.take n ∧
      (ringShift n s l).drop (n + 1) = l.drop (n + 1) := by
  induction n with
  | zero =>
    intro s l hl
    cases l with
    | nil => simp at hl
    | cons a t => simp [ringShift]
  | succ n ih =>
    intro s l hl
    cases l with
    | nil => simp at hl
    | cons a t =>
      have ht : n < t.length := by
        simpa [Nat.succ_lt_succ_iff] using hl
      obtain ⟨h1, h2⟩ := ih a t ht
      constructor
      · simp [ringShift, List.take_succ_cons, h1]
      · simp [ringShift, h2]

/-- C8: advancing the context with a symbol `s` sets, for each order `k`,
the length-`(k+1)` sub-tuple to `(s, previous[0], ..., previous[k-1])` —
the new symbol goes in front, the oldest entry of the sub-tuple is
discarded, the rest of the tuple is untouched, and each order's sub-state
is shifted independently of the others. -/
theorem iterate_ring_shift (ms : MarkovState) (s : Byte) (k : Fin order)
    (hlen : (ms k).length = 4) :
    (Iterate ms s k).take ((k : ℕ) + 1) = s :: (ms k).take (k : ℕ) ∧
    (Iterate ms s k).drop ((k : ℕ) + 1) = (ms k).drop ((k : ℕ) + 1) := by
  have hk : (k : ℕ) < (ms k).length := by
    rw [hlen]
    exact k.isLt
  exact ringShift_take_drop (k : ℕ) s (ms k) hk

/-- Concrete check of C8: order-2 sub-context of `[1,2,3,4]` after
advancing with `9` is `(9,1,2)`. -/
theorem iterate_ring_shift_witness :
    ((fun _ => [(1 : Byte), 2, 3, 4] : MarkovState) 2).length = 4 ∧
    (Iterate (fun _ => [(1 : Byte), 2, 3, 4]) 9 2).take 3 =
      9 :: ([(1 : Byte), 2, 3, 4].take 2) := by
  refine ⟨by decide, ?_⟩
  exact (iterate_ring_shift (fun _ => [(1 : Byte), 2, 3, 4]) 9 2 (by decide)).1

/-- Per-order frequency tables (`type Model [order]map[Markov][]uint32`):
for each order, a map from a context tuple to a 256-wide count vector.
`none` models the Go nil sentinel for a missing key. -/
abbrev Model := Fin order → Markov → Option (List ℕ)

/-- The float32 sum of a count vector, computed exactly over `ℚ`
(main.go lines 80-83). -/
def sumQ (v : List ℕ) : ℚ :=
  (v.map (fun n : ℕ => (n : ℚ))).sum

/-- Normalization in `Lookup` (main.go lines 84-87): divide every count by
the vector's sum. -/
def normalizeCounts (v : List ℕ) : List ℚ :=
  v.map (fun n : ℕ => (n : ℚ) / sumQ v)

/-- The descending-order scan of `Lookup` (main.go lines 76-90): try each
order in the given sequence; the first whose table holds the current
context tuple yields its normalized count vector. -/
def lookupAux (ms : MarkovState) (model : Model) : List (Fin order) → Option (List ℚ)
  | [] => none
  | i :: rest =>
    match model i (ms i) with
    | some v => some (normalizeCounts v)
    | none => lookupAux ms model rest

/-- `Lookup` (main.go lines 75-92): scan the orders from `order-1` (= 3)
down to 0 with `i = order - 1 - i`. -/
def Lookup (ms : MarkovState) (model : Model) : Option (List ℚ) :=
  lookupAux ms model [3, 2, 1, 0]

/-- C3: the lookup consults orders from the longest (index 3, context
length 4) downward and returns the normalized counts of the first order
whose table contains its current context tuple; once a longer order
matches, shorter orders are never consulted, so when a long and a short
order both contain the context the returned distribution is the long
order's. -/
theorem lookup_longest_first (ms : MarkovState) (model : Model) (i : Fin order)
    (v : List ℕ) (hhit : model i (ms i) = some v)
    (hmiss : ∀ j : Fin order, i < j → model j (ms j) = none) :
    Lookup ms model = some (normalizeCounts v) := by
  fin_cases i
  · have h3 : model 3 (ms 3) = none := hmiss 3 (by decide)
    have h2 : model 2 (ms 2) = none := hmiss 2 (by decide)
    have h1 : model 1 (ms 1) = none := hmiss 1 (by decide)
    have hh : model 0 (ms 0) = some v := hhit
    simp [Lookup, lookupAux, h3, h2, h1, hh]
  · have h3 : model 3 (ms 3) = none := hmiss 3 (by decide)
    have h2 : model 2 (ms 2) = none := hmiss 2 (by decide)
    have hh : model 1 (ms 1) = some v := hhit
    simp [Lookup, lookupAux, h3, h2, hh]
  · have h3 : model 3 (ms 3) = none := hmiss 3 (by decide)
    have hh : model 2 (ms 2) = some v := hhit
    simp [Lookup, lookupAux, h3, hh]
  · have hh : model 3 (ms 3) = some v := hhit
    simp [Lookup, lookupAux, hh]

/-- A model for exercising C3: the order-3 table and the order-0 table
both contain every context, with different count vectors. -/
def modelBoth : Model := fun i _ =>
  if (i : ℕ) = 3 then some [1, 1]
  else if (i : ℕ) = 0 then some [5, 0]
  else none

/-- The all-zero initial context state (`markov := [order]Markov{}`). -/
def msZero : MarkovState := fun _ => List.replicate order 0

/-- Concrete check of C3: with both order 3 and order 0 populated, the
lookup returns the order-3 normalized counts. -/
theorem lookup_longest_first_witness :
    modelBoth 3 (msZero 3) = some [1, 1] ∧
    (∀ j : Fin order, (3 : Fin order) < j → modelBoth j (msZero j) = none) ∧
    Lookup msZero modelBoth = some (normalizeCounts [1, 1]) := by
  have hno : ∀ j : Fin order, (3 : Fin order) < j → modelBoth j (msZero j) = none := by
    intro j hj
    have h1 : ((3 : Fin order) : ℕ) < (j : ℕ) := hj
    have h2 : (j : ℕ) < order := j.isLt
    have h3 : ((3 : Fin order) : ℕ) = 3 := rfl
    have h4 : order = 4 := rfl
    exact absurd h1 (by omega)
  exact ⟨rfl, hno, lookup_longest_first msZero modelBoth 3 [1, 1] rfl hno⟩

/-- Well-formedness of a frequency-table model, as established by corpus
ingestion: every stored count vector has 256 entries and positive total
count. -/
def wfModel (model : Model) : Prop :=
  ∀ (i : Fin order) (k : Markov) (v : List ℕ),
    model i k = some v → v.length = 256 ∧ 0 < v.sum

/-- Dividing every entry of a list by a constant divides the sum. -/
theorem sum_map_div (l : List ℚ) (s : ℚ) :
    (l.map (fun x => x / s)).sum = l.sum / s := by
  induction l with
  | nil => simp
  | cons a t ih => simp [ih, add_div]

/-- A normalized vector with positive total count sums to 1 and keeps its
length. -/
theorem normalizeCounts_sum_one (v : List ℕ) (hv : 0 < v.sum) :
    (normalizeCounts v).sum = 1 ∧ (normalizeCounts v).length = v.length := by
  have hs : sumQ v = (v.sum : ℚ) := (Nat.cast_list_sum v).symm
  have hne : sumQ v ≠ 0 := by
    rw [hs]
    exact Nat.cast_ne_zero.mpr (Nat.pos_iff_ne_zero.mp hv)
  constructor
  · have hmap : normalizeCounts v
        = (v.map (fun n : ℕ => (n : ℚ))).map (fun x => x / sumQ v) := by
      rw [List.map_map]
      rfl
    rw [hmap, sum_map_div]
    rw [show (v.map fun n : ℕ => (n : ℚ)).sum = sumQ v from rfl]
    exact div_self hne
  · simp only [normalizeCounts, List.length_map]

/-- The scan returns `none` exactly when every scanned order misses. -/
theorem lookupAux_eq_none_iff (ms : MarkovState) (model : Model) :
    ∀ L : List (Fin order),
      lookupAux ms model L = none ↔ ∀ i ∈ L, model i (ms i) = none := by
  intro L
  induction L with
  | nil => simp [lookupAux]
  | cons i rest ih =>
    cases h : model i (ms i) with
    | some v => simp [lookupAux, h]
    | none => simp [lookupAux, h, ih]

/-- Any vector returned by the scan is the normalization of some stored
count vector of a scanned order. -/
theorem lookupAux_some (ms : MarkovState) (model : Model) :
    ∀ (L : List (Fin order)) (r : List ℚ),
      lookupAux ms model L = some r →
      ∃ i ∈ L, ∃ v, model i (ms i) = some v ∧ r = normalizeCounts v := by
  intro L
  induction L with
  | nil => simp [lookupAux]
  | cons i rest ih =>
    intro r hr
    cases h : model i (ms i) with
    | some v =>
      refine ⟨i, by simp, v, h, ?_⟩
      simp [lookupAux, h] at hr
      exact hr.symm
    | none =>
      simp only [lookupAux, h] at hr
      obtain ⟨j, hj, v, hv, hnorm⟩ := ih r hr
      exact ⟨j, by simp [hj], v, hv, hnorm⟩

/-- C4: over a model produced by ingestion (every stored vector has 256
entries and positive total count), the lookup returns `none` exactly when
no order's table contains that order's current context tuple, and any
returned feature is a 256-entry vector summing to 1. -/
theorem lookup_feature_normalized (ms : MarkovState) (model : Model)
    (hwf : wfModel model) :
    (Lookup ms model = none ↔ ∀ i : Fin order, model i (ms i) = none) ∧
    ∀ r, Lookup ms model = some r → r.length = 256 ∧ r.sum = 1 := by
  constructor
  · rw [Lookup, lookupAux_eq_none_iff]
    constructor
    · intro h i
      exact h i (by fin_cases i <;> decide)
    · intro h i _
      exact h i
  · intro r hr
    obtain ⟨i, _, v, hv, hnorm⟩ := lookupAux_some ms model [3, 2, 1, 0] r hr
    obtain ⟨hlen, hpos⟩ := hwf i (ms i) v hv
    obtain ⟨hsum, hlen2⟩ := normalizeCounts_sum_one v hpos
    subst hnorm
    exact ⟨hlen2.trans hlen, hsum⟩

/-- A small well-formed model: the order-0 table maps every context to a
vector of 256 entries each equal to 2. -/
def modelWf : Model := fun i _ =>
  if (i : ℕ) = 0 then some (List.replicate 256 2) else none

/-- The witness model is well formed. -/
theorem modelWf_wf : wfModel modelWf := by
  intro i k v h
  by_cases hi : (i : ℕ) = 0
  · simp only [modelWf] at h
    rw [if_pos hi] at h
    injection h with h
    subst h
    constructor
    · rw [List.length_replicate]
    · rw [List.sum_replicate]
      simp
  · simp only [modelWf] at h
    rw [if_neg hi] at h
    exact absurd h (by simp)

/-- Concrete check of C4: the witness model is well formed, and the lookup
facts follow at the all-zero context in particular; moreover the lookup
there concretely returns a vector (the branch is not vacuous). -/
theorem lookup_feature_normalized_witness :
    wfModel modelWf ∧
    (Lookup msZero modelWf).isSome = true ∧
    ((Lookup msZero modelWf = none ↔ ∀ i : Fin order, modelWf i (msZero i) = none) ∧
      ∀ r, Lookup msZero modelWf = some r → r.length = 256 ∧ r.sum = 1) := by
  refine ⟨modelWf_wf, by decide, lookup_feature_normalized msZero modelWf modelWf_wf⟩

/-- The empty frequency-table model, before ingestion (`make(map[Markov][]uint32)`
for each order, main.go lines 136-138). -/
def emptyModel : Model := fun _ _ => none

/-- `vector[value]++` on a 256-wide count vector (main.go line 145). -/
def bump (v : List ℕ) (s : Byte) : List ℕ :=
  v.set (s : ℕ) (v.getD (s : ℕ) 0 + 1)

/-- One iteration of the ingestion loop body (main.go lines 139-152): for
each order, fetch the current context's count vector (a fresh zero vector
when the key is absent), increment the observed symbol's count, store it
back, and then shift that order's context — the same shift as `Iterate`. -/
def ingestTables (m : Model) (ms : MarkovState) (value : Byte) : Model :=
  fun i k =>
    if k = ms i then
      some (bump ((m i (ms i)).getD (List.replicate 256 0)) value)
    else m i k

/-- The pair of effects of one ingestion loop body: updated tables and the
shifted context. -/
def ingestStep (m : Model) (ms : MarkovState) (value : Byte) : Model × MarkovState :=
  (ingestTables m ms value, Iterate ms value)

/-- `load`'s ingestion pass (main.go lines 135-153): fold the byte
sequence through `ingestStep`, starting from the empty tables and the
all-zero context. -/
def ingest (data : List Byte) : Model × MarkovState :=
  data.foldl (fun p value => ingestStep p.1 p.2 value) (emptyModel, msZero)

/-- The context component of the ingestion fold advances exactly as
`Iterate` does. -/
theorem ingest_ctx (seq : List Byte) :
    ∀ p : Model × MarkovState,
      (seq.foldl (fun p value => ingestStep p.1 p.2 value) p).2
        = seq.foldl Iterate p.2 := by
  induction seq with
  | nil => intro p; rfl
  | cons a t ih =>
    intro p
    rw [List.foldl_cons, List.foldl_cons, ih]
    rfl

/-- Ingestion never removes a key: a present table entry stays present. -/
theorem ingestStep_mono (m : Model) (ms : MarkovState) (value : Byte)
    (i : Fin order) (k : Markov) (h : (m i k).isSome = true) :
    ((ingestTables m ms value) i k).isSome = true := by
  by_cases hk : k = ms i
  · simp only [ingestTables]
    rw [if_pos hk]
    rfl
  · simp only [ingestTables]
    rw [if_neg hk]
    exact h

/-- Ingesting more symbols preserves key presence. -/
theorem ingest_fold_mono (seq : List Byte) :
    ∀ (p : Model × MarkovState) (i : Fin order) (k : Markov),
      (p.1 i k).isSome = true →
      (((seq.foldl (fun p value => ingestStep p.1 p.2 value) p).1) i k).isSome
        = true := by
  induction seq with
  | nil => intro p i k h; exact h
  | cons a t ih =>
    intro p i k h
    rw [List.foldl_cons]
    exact ih (ingestStep p.1 p.2 a) i k (ingestStep_mono p.1 p.2 a i k h)

/-- After one ingestion step, every order's table contains that order's
pre-step context as a key. -/
theorem ingestStep_hits (m : Model) (ms : MarkovState) (value : Byte) (i : Fin order) :
    ((ingestTables m ms value) i (ms i)).isSome = true := by
  simp only [ingestTables]
  rw [if_true]
  rfl

/-- After ingesting the whole sequence, each order's table contains the
working context that ingestion had just before each position. -/
theorem ingest_present (data : List Byte) (j : ℕ) (hj : j < data.length)
    (i : Fin order) :
    (((ingest data).1) i (((data.take j).foldl Iterate msZero) i)).isSome = true := by
  have hsplit : data.take (j + 1) ++ data.drop (j + 1) = data :=
    List.take_append_drop (j + 1) data
  have hstep : ingest data
      = (data.drop (j + 1)).foldl (fun p value => ingestStep p.1 p.2 value)
          (ingest (data.take (j + 1))) := by
    rw [ingest, ingest, ← List.foldl_append]
    rw [hsplit]
  have htake : data.take (j + 1) = data.take j ++ [data[j]] := by
    rw [List.take_succ, List.getElem?_eq_getElem hj]
    rfl
  have hpre : ingest (data.take (j + 1))
      = ingestStep (ingest (data.take j)).1 (ingest (data.take j)).2 data[j] := by
    rw [ingest, htake, List.foldl_append]
    rfl
  have hctx : (ingest (data.take j)).2 = (data.take j).foldl Iterate msZero :=
    ingest_ctx (data.take j) (emptyModel, msZero)
  have hhit : ((ingest (data.take (j + 1))).1 i (((data.take j).foldl Iterate msZero) i)).isSome
      = true := by
    rw [hpre, ← hctx]
    exact ingestStep_hits _ _ _ i
  rw [hstep]
  exact ingest_fold_mono (data.drop (j + 1)) (ingest (data.take (j + 1))) i _ hhit

/-- A hit in the order-3 table makes the lookup succeed immediately. -/
theorem lookup_of_hit3 (ms : MarkovState) (model : Model)
    (h : (model 3 (ms 3)).isSome = true) :
    (Lookup ms model).isSome = true := by
  obtain ⟨v, hv⟩ := Option.isSome_iff_exists.mp h
  simp [Lookup, lookupAux, hv]

/-- Advancing the all-zero context with symbol 0 leaves it all zero, so
the extra `Iterate(&markov, 0)` at the start of the training loop
(main.go line 203) leaves the training context equal to the ingestion
context. -/
theorem iterate_zero_eq : Iterate msZero 0 = msZero := by
  funext i
  fin_cases i <;> rfl

/-- C10: at every position of the training loop over the first `256*1024`
bytes of the ingested data, the working training context equals the
ingestion pass's working context before that same byte, the longest-order
(order-3) table contains the current context, and hence `Lookup` never
returns the no-feature sentinel during training. -/
theorem training_lookup_total (data : List Byte) (j : ℕ)
    (hj : j < (data.take (256 * 1024)).length) :
    ((data.take (256 * 1024)).take j).foldl Iterate (Iterate msZero 0)
        = (ingest (data.take j)).2 ∧
    (((ingest data).1) 3
        ((((data.take (256 * 1024)).take j).foldl Iterate (Iterate msZero 0)) 3)).isSome
      = true ∧
    (Lookup (((data.take (256 * 1024)).take j).foldl Iterate (Iterate msZero 0))
        ((ingest data).1)).isSome = true := by
  have hlen : (data.take (256 * 1024)).length = min (256 * 1024) data.length :=
    List.length_take _ _
  have hjd : j < data.length := by
    rw [hlen] at hj
    omega
  have hjK : j ≤ 256 * 1024 := by
    rw [hlen] at hj
    omega
  have htt : (data.take (256 * 1024)).take j = data.take j := by
    rw [List.take_take]
    congr 1
    omega
  have hctx : ((data.take (256 * 1024)).take j).foldl Iterate (Iterate msZero 0)
      = (data.take j).foldl Iterate msZero := by
    rw [htt, iterate_zero_eq]
  have hpresent := ingest_present data j hjd 3
  refine ⟨?_, ?_, ?_⟩
  · rw [hctx]
    exact (ingest_ctx (data.take j) (emptyModel, msZero)).symm
  · rw [hctx]
    exact hpresent
  · rw [hctx]
    exact lookup_of_hit3 _ _ hpresent

/-- Concrete check of C10: on the one-byte corpus `[5]`, position 0 of the
training loop sees a context present in the order-3 table and the lookup
succeeds. -/
theorem training_lookup_total_witness :
    0 < (List.take (256 * 1024) [(5 : Byte)]).length ∧
    (Lookup ((List.take (256 * 1024) [(5 : Byte)]).take 0 |>.foldl Iterate
        (Iterate msZero 0)) ((ingest [(5 : Byte)]).1)).isSome = true := by
  refine ⟨by decide, ?_⟩
  exact (training_lookup_total [(5 : Byte)] 0 (by decide)).2.2

/-- A float64 value as the Go code can observe it: an exact value, NaN, or
a signed infinity.  Exact arithmetic is carried in the payload; the
special values arise only from division by zero, mirroring IEEE 754 for
the operations the sampler and the loss check actually perform. -/
inductive GoF (α : Type) where
  | val (x : α)
  | nan
  | pinf
  | ninf
deriving DecidableEq

/-- Go float64 addition restricted to the cases reachable in the sampler:
NaN absorbs, infinities of opposite sign give NaN. -/
def gofAdd : GoF ℚ → GoF ℚ → GoF ℚ
  | GoF.nan, _ => GoF.nan
  | _, GoF.nan => GoF.nan
  | GoF.pinf, GoF.ninf => GoF.nan
  | GoF.ninf, GoF.pinf => GoF.nan
  | GoF.pinf, _ => GoF.pinf
  | _, GoF.pinf => GoF.pinf
  | GoF.ninf, _ => GoF.ninf
  | _, GoF.ninf => GoF.ninf
  | GoF.val a, GoF.val b => GoF.val (a + b)

/-- Go float64 division of exact values: division by zero yields NaN for a
zero numerator and a signed infinity otherwise (IEEE 754), exact quotient
otherwise. -/
def gofDiv (a b : ℚ) : GoF ℚ :=
  if b = 0 then
    if a = 0 then GoF.nan
    else if 0 < a then GoF.pinf else GoF.ninf
  else GoF.val (a / b)

/-- The comparison `selected < total` of main.go line 339 under IEEE
semantics: any comparison with NaN is false; `u < +inf` is true. -/
def gofLt (u : ℚ) : GoF ℚ → Bool
  | GoF.val q => decide (u < q)
  | GoF.pinf => true
  | _ => false

/-- `byte(i)` for the candidate index (main.go line 340). -/
def goByte (i : ℕ) : Byte :=
  ⟨i % 256, Nat.mod_lt i (by norm_num)⟩

/-- `max := 0.0; for _, value := range distribution { if value > max ... }`
(main.go lines 324-329). -/
def goMax (xs : List ℚ) : ℚ :=
  xs.foldl (fun mx v => if mx < v then v else mx) 0

/-- The selection loop of main.go lines 336-345: accumulate
`total += value/sum` and select the first index with `selected < total`;
falling off the end selects nothing. -/
def pickAux (s u : ℚ) : List ℚ → ℕ → GoF ℚ → Option ℕ
  | [], _, _ => none
  | v :: rest, i, total =>
    let total2 := gofAdd total (gofDiv v s)
    if gofLt u total2 then some i else pickAux s u rest (i + 1) total2

/-- One sampling step over the candidate losses (main.go lines 324-345):
compute the maximum loss, score every candidate as `max - loss`, sum the
scores, and run the inverse-CDF selection loop with the drawn uniform
`u`. -/
def sampleStep (losses : List ℚ) (u : ℚ) : Option ℕ :=
  let m := goMax losses
  let sc := losses.map (fun v => m - v)
  pickAux sc.sum u sc 0 (GoF.val 0)

/-- One full generation step (main.go lines 291-346): when the selection
loop picks index `i`, append `byte(i)` and advance the context; when it
falls off the end, nothing is appended and the context stays unchanged. -/
def genStep (losses : List ℚ) (u : ℚ) (str : List Byte) (ms : MarkovState) :
    List Byte × MarkovState :=
  match sampleStep losses u with
  | some i => (str ++ [goByte i], Iterate ms (goByte i))
  | none => (str, ms)

/-- Once the accumulator is NaN it stays NaN and no candidate is ever
selected. -/
theorem pickAux_nan (s u : ℚ) :
    ∀ (L : List ℚ) (i : ℕ), pickAux s u L i GoF.nan = none := by
  intro L
  induction L with
  | nil => intro i; rfl
  | cons v rest ih =>
    intro i
    have hadd : gofAdd GoF.nan (gofDiv v s) = GoF.nan := by
      cases hd : gofDiv v s <;> rfl
    simp only [pickAux, hadd]
    rw [show gofLt u GoF.nan = false from rfl]
    rw [if_neg Bool.false_ne_true]
    exact ih (i + 1)

/-- The running maximum of a constant positive list is that constant. -/
theorem goMax_replicate (n : ℕ) (x : ℚ) (hx : 0 < x) :
    goMax (List.replicate (n + 1) x) = x := by
  have hstep : ∀ m : ℕ, List.foldl (fun mx v => if mx < v then v else mx) x
      (List.replicate m x) = x := by
    intro m
    induction m with
    | zero => rfl
    | succ m ih =>
      rw [List.replicate_succ, List.foldl_cons]
      rw [if_neg (lt_irrefl x)]
      exact ih
  rw [List.replicate_succ, goMax, List.foldl_cons]
  rw [if_pos hx]
  exact hstep n

/-- C2 (behaviour at the failing input): when all 256 candidate losses are
equal — here all equal to 7 — every score is `max - loss = 0`, the score
total is 0, the accumulator becomes `0/0 = NaN` at the first candidate and
stays NaN, the comparison `u < NaN` is false for every candidate, so the
loop exhausts all 256 candidates without selecting one: the generation
step appends no byte and leaves the context unchanged (it does not loop
forever or crash, but there is no fallback selection). -/
theorem degenerate_scores_select_nothing (u : ℚ) (str : List Byte) (ms : MarkovState) :
    sampleStep (List.replicate 256 (7 : ℚ)) u = none ∧
    genStep (List.replicate 256 (7 : ℚ)) u str ms = (str, ms) := by
  have hmax : goMax (List.replicate 256 (7 : ℚ)) = 7 :=
    goMax_replicate 255 7 (by norm_num)
  have hmap : (List.replicate 256 (7 : ℚ)).map
      (fun v => goMax (List.replicate 256 (7 : ℚ)) - v) = List.replicate 256 0 := by
    rw [List.map_replicate, hmax]
    norm_num
  have hsum : (List.replicate 256 (0 : ℚ)).sum = 0 := by
    rw [List.sum_replicate]
    simp
  have hpick : sampleStep (List.replicate 256 (7 : ℚ)) u = none := by
    rw [sampleStep]
    simp only [hmap, hsum]
    rw [show (List.replicate 256 (0 : ℚ)) = 0 :: List.replicate 255 0 from rfl]
    rw [pickAux]
    have hdiv : gofDiv 0 0 = GoF.nan := rfl
    have hadd : gofAdd (GoF.val 0) (gofDiv 0 0) = GoF.nan := rfl
    simp only [hadd]
    rw [show gofLt u GoF.nan = false from rfl]
    rw [if_neg Bool.false_ne_true]
    exact pickAux_nan 0 u (List.replicate 255 0) (0 + 1)
  exact ⟨hpick, by rw [genStep, hpick]⟩

/-- Exponential decay rate for the first-moment estimates (main.go line 24). -/
noncomputable def B1 : ℝ := 0.8

/-- Exponential decay rate for the second-moment estimates (main.go line 26). -/
noncomputable def B2 : ℝ := 0.89

/-- The learning rate (main.go line 28). -/
noncomputable def Eta : ℝ := 1.0e-3

/-- A parameter tensor, indexed by flat element position (`w.X`, `w.D`, or
a `w.States` row in the tf64 set). -/
abbrev Tensor := ℕ → ℝ

/-- The four parameter tensors of one autoencoder (`Set.Add` calls at
main.go lines 172-175): `l1` is 256x256, `b1` 256, `l2` 512x256, `b2`
256. -/
structure Params where
  l1 : Tensor
  b1 : Tensor
  l2 : Tensor
  b2 : Tensor

/-- Select one of the four tensors by position, in the order the Go loop
over `Set.Weights` visits them. -/
def Params.tensor (p : Params) : Fin 4 → Tensor := fun t =>
  match (t : ℕ) with
  | 0 => p.l1
  | 1 => p.b1
  | 2 => p.l2
  | _ => p.b2

/-- Sum of squared entries of one tensor over its element count. -/
noncomputable def tensorNormSq (t : Tensor) (n : ℕ) : ℝ :=
  ∑ i in Finset.range n, t i * t i

/-- `norm += d * d` over all four tensors (main.go lines 246-251), using
the tensor sizes fixed by the `Set.Add` dimensions. -/
noncomputable def gradNormSq (g : Params) : ℝ :=
  tensorNormSq g.l1 (256 * 256) + tensorNormSq g.b1 256
    + tensorNormSq g.l2 (512 * 256) + tensorNormSq g.b2 256

/-- `norm = math.Sqrt(norm)` (main.go line 252). -/
noncomputable def gradNorm (g : Params) : ℝ :=
  Real.sqrt (gradNormSq g)

/-- `scaling := 1.0; if norm > 1 { scaling = 1 / norm }` (main.go lines
254-257). -/
noncomputable def gradScaling (g : Params) : ℝ :=
  if 1 < gradNorm g then 1 / gradNorm g else 1

/-- `math.Pow(x, iteration+1)` in the `pow` closure (main.go line 206),
in exact real arithmetic: the power of a finite value is a finite value. -/
noncomputable def goPow (x : ℝ) (n : ℕ) : GoF ℝ :=
  GoF.val (x ^ n)

/-- The NaN/Inf clamp of the `pow` closure (main.go lines 207-210): a
power that comes out NaN or infinite is replaced by 0. -/
noncomputable def goClamp : GoF ℝ → ℝ
  | GoF.val y => y
  | _ => 0

/-- The full `pow` closure (main.go lines 205-211). -/
noncomputable def powClamped (x : ℝ) (n : ℕ) : ℝ :=
  goClamp (goPow x n)

/-- The per-element optimizer update (main.go lines 259-271): returns the
updated weight, first moment, and second moment for one element. -/
noncomputable def adamEntry (b1t b2t s x m v d : ℝ) : ℝ × ℝ × ℝ :=
  let g := d * s
  let m2 := B1 * m + (1 - B1) * g
  let v2 := B2 * v + (1 - B2) * g * g
  let mhat := m2 / (1 - b1t)
  let vhat0 := v2 / (1 - b2t)
  let vhat := if vhat0 < 0 then 0 else vhat0
  (x - Eta * mhat / (Real.sqrt vhat + 1e-8), m2, v2)

/-- Weight component of the per-element update, lifted to a tensor. -/
noncomputable def adamTensorX (b1t b2t s : ℝ) (x m v d : Tensor) : Tensor :=
  fun i => (adamEntry b1t b2t s (x i) (m i) (v i) (d i)).1

/-- First-moment component of the per-element update, lifted to a tensor. -/
noncomputable def adamTensorM (b1t b2t s : ℝ) (x m v d : Tensor) : Tensor :=
  fun i => (adamEntry b1t b2t s (x i) (m i) (v i) (d i)).2.1

/-- Second-moment component of the per-element update, lifted to a tensor. -/
noncomputable def adamTensorV (b1t b2t s : ℝ) (x m v d : Tensor) : Tensor :=
  fun i => (adamEntry b1t b2t s (x i) (m i) (v i) (d i)).2.2

/-- One autoencoder (`type Auto struct` plus its tf64 weight set, main.go
lines 162-196): weights `x`, the two moment-state rows, and the
per-autoencoder step counter `Iteration`. -/
structure Auto where
  x : Params
  stateM : Params
  stateV : Params
  iteration : ℕ

/-- The optimizer update applied to one autoencoder (main.go lines
246-274): global-norm clipping, per-element moment updates and weight
step with bias corrections `pow(B1)`/`pow(B2)` taken at this
autoencoder's own step counter plus one, then that counter incremented. -/
noncomputable def adamUpdate (a : Auto) (g : Params) : Auto :=
  let s := gradScaling g
  let b1t := powClamped B1 (a.iteration + 1)
  let b2t := powClamped B2 (a.iteration + 1)
  { x := { l1 := adamTensorX b1t b2t s a.x.l1 a.stateM.l1 a.stateV.l1 g.l1,
           b1 := adamTensorX b1t b2t s a.x.b1 a.stateM.b1 a.stateV.b1 g.b1,
           l2 := adamTensorX b1t b2t s a.x.l2 a.stateM.l2 a.stateV.l2 g.l2,
           b2 := adamTensorX b1t b2t s a.x.b2 a.stateM.b2 a.stateV.b2 g.b2 },
    stateM := { l1 := adamTensorM b1t b2t s a.x.l1 a.stateM.l1 a.stateV.l1 g.l1,
                b1 := adamTensorM b1t b2t s a.x.b1 a.stateM.b1 a.stateV.b1 g.b1,
                l2 := adamTensorM b1t b2t s a.x.l2 a.stateM.l2 a.stateV.l2 g.l2,
                b2 := adamTensorM b1t b2t s a.x.b2 a.stateM.b2 a.stateV.b2 g.b2 },
    stateV := { l1 := adamTensorV b1t b2t s a.x.l1 a.stateM.l1 a.stateV.l1 g.l1,
                b1 := adamTensorV b1t b2t s a.x.b1 a.stateM.b1 a.stateV.b1 g.b1,
                l2 := adamTensorV b1t b2t s a.x.l2 a.stateM.l2 a.stateV.l2 g.l2,
                b2 := adamTensorV b1t b2t s a.x.b2 a.stateM.b2 a.stateV.b2 g.b2 },
    iteration := a.iteration + 1 }

/-- The mutable state of the training loop (main.go lines 169-281): the
256 autoencoders indexed by byte value, the working context, the (frozen)
frequency tables of the training corpus, and the global iteration
counter. -/
structure TrainState where
  autos : Byte → Auto
  markov : MarkovState
  model : Model
  iteration : ℕ

/-- The input vector built at main.go lines 227-231: `range` over the
result of `Lookup`, which appends nothing when the lookup returned nil. -/
def featInput (st : TrainState) : List ℚ :=
  (Lookup st.markov st.model).getD []

/-- Modelled from the spec: the external autodiff/tensor engine
(`github.com/pointlander/gradient/tf64`, not part of this repository) is
specified only at its interface — given the selected autoencoder's
parameters and the input feature (used as both input and reconstruction
target), it produces the scalar loss (a float64, possibly NaN or
infinite) and one gradient tensor per parameter tensor. -/
def Engine : Type :=
  Params → List ℚ → GoF ℝ × Params

/-- `math.IsNaN(l) || math.IsInf(l, 0)` (main.go line 241). -/
def isBad : GoF ℝ → Bool
  | GoF.val _ => false
  | _ => true

/-- One iteration of the training loop body (main.go lines 204-280) for
the byte `value`: build the feature input, run the engine for loss and
gradients, abort on NaN/infinite loss reporting the iteration and the
loss, otherwise update the selected autoencoder, bump both counters and
advance the context. -/
noncomputable def trainStep (engine : Engine) (st : TrainState) (value : Byte) :
    TrainState × Option (ℕ × GoF ℝ) :=
  let r := engine (st.autos value).x (featInput st)
  if isBad r.1 then (st, some (st.iteration, r.1))
  else
    ({ autos := Function.update st.autos value (adamUpdate (st.autos value) r.2),
       markov := Iterate st.markov value,
       model := st.model,
       iteration := st.iteration + 1 }, none)

/-- The training loop (main.go lines 204-281): process the byte stream in
order; an abort stops the loop at once, returning the state from just
before the failing step together with the reported iteration and loss. -/
noncomputable def trainLoop (engine : Engine) :
    List Byte → TrainState → TrainState × Option (ℕ × GoF ℝ)
  | [], st => (st, none)
  | v :: rest, st =>
    match trainStep engine st v with
    | (st2, none) => trainLoop engine rest st2
    | (st2, some r) => (st2, some r)

/-- A bad (NaN or infinite) loss makes the step abort with the pre-step
state and the report pair. -/
theorem trainStep_abort (engine : Engine) (st : TrainState) (value : Byte)
    (hb : isBad (engine (st.autos value).x (featInput st)).1 = true) :
    trainStep engine st value
      = (st, some (st.iteration, (engine (st.autos value).x (featInput st)).1)) := by
  simp only [trainStep]
  rw [if_pos hb]

/-- A good (finite) loss makes the step perform the optimizer update on
the selected autoencoder, bump both counters, and advance the context. -/
theorem trainStep_ok (engine : Engine) (st : TrainState) (value : Byte)
    (hb : isBad (engine (st.autos value).x (featInput st)).1 = false) :
    trainStep engine st value
      = ({ autos := Function.update st.autos value
              (adamUpdate (st.autos value) (engine (st.autos value).x (featInput st)).2),
           markov := Iterate st.markov value,
           model := st.model,
           iteration := st.iteration + 1 }, none) := by
  simp only [trainStep]
  rw [if_neg (by rw [hb]; exact Bool.false_ne_true)]

/-- C5: in the optimizer update, with `N` the global L2 norm over all
entries of all four gradient tensors, every gradient entry enters the
moment updates multiplied by exactly `1/N` when `N > 1` and unscaled when
`N <= 1`; the clipping factor never amplifies a gradient entry. -/
theorem clip_scales_gradients (g : Params) (a : Auto) (t : Fin 4) (i : ℕ) :
    (1 < gradNorm g →
      ((adamUpdate a g).stateM.tensor t) i
          = B1 * ((a.stateM.tensor t) i)
              + (1 - B1) * ((g.tensor t) i * (1 / gradNorm g)) ∧
      ((adamUpdate a g).stateV.tensor t) i
          = B2 * ((a.stateV.tensor t) i)
              + (1 - B2) * ((g.tensor t) i * (1 / gradNorm g))
                  * ((g.tensor t) i * (1 / gradNorm g))) ∧
    (gradNorm g ≤ 1 →
      ((adamUpdate a g).stateM.tensor t) i
          = B1 * ((a.stateM.tensor t) i) + (1 - B1) * ((g.tensor t) i) ∧
      ((adamUpdate a g).stateV.tensor t) i
          = B2 * ((a.stateV.tensor t) i)
              + (1 - B2) * ((g.tensor t) i) * ((g.tensor t) i)) ∧
    |(g.tensor t) i * gradScaling g| ≤ |(g.tensor t) i| := by
  have hM : ((adamUpdate a g).stateM.tensor t) i
      = B1 * ((a.stateM.tensor t) i)
          + (1 - B1) * ((g.tensor t) i * gradScaling g) := by
    fin_cases t <;> rfl
  have hV : ((adamUpdate a g).stateV.tensor t) i
      = B2 * ((a.stateV.tensor t) i)
          + (1 - B2) * ((g.tensor t) i * gradScaling g)
              * ((g.tensor t) i * gradScaling g) := by
    fin_cases t <;> rfl
  have hs01 : 0 ≤ gradScaling g ∧ gradScaling g ≤ 1 := by
    rw [gradScaling]
    split
    · rename_i h
      have hpos : 0 < gradNorm g := lt_trans one_pos h
      constructor
      · positivity
      · rw [div_le_one hpos]
        linarith
    · exact ⟨zero_le_one, le_refl 1⟩
  refine ⟨?_, ?_, ?_⟩
  · intro h
    have hscale : gradScaling g = 1 / gradNorm g := by
      rw [gradScaling, if_pos h]
    rw [hM, hV, hscale]
    exact ⟨rfl, rfl⟩
  · intro h
    have hscale : gradScaling g = 1 := by
      rw [gradScaling, if_neg (not_lt.mpr h)]
    rw [hM, hV, hscale, mul_one]
    exact ⟨rfl, rfl⟩
  · calc |(g.tensor t) i * gradScaling g|
        = |(g.tensor t) i| * |gradScaling g| := abs_mul _ _
      _ ≤ |(g.tensor t) i| * 1 := by
          apply mul_le_mul_of_nonneg_left _ (abs_nonneg _)
          rw [abs_of_nonneg hs01.1]
          exact hs01.2
      _ = |(g.tensor t) i| := mul_one _

/-- The all-zero tensor and parameter set (fresh gradient buffers). -/
noncomputable def zeroTensor : Tensor := fun _ => 0

/-- All-zero parameters. -/
noncomputable def zeroParams : Params :=
  { l1 := zeroTensor, b1 := zeroTensor, l2 := zeroTensor, b2 := zeroTensor }

/-- A freshly initialized autoencoder with zero weights, moments, and step
counter. -/
noncomputable def auto0 : Auto :=
  { x := zeroParams, stateM := zeroParams, stateV := zeroParams, iteration := 0 }

/-- A gradient set with one entry 2 in `l1` and zeros elsewhere: its
global norm is 2. -/
noncomputable def gradBig : Params :=
  { l1 := fun i => if i = 0 then 2 else 0, b1 := zeroTensor,
    l2 := zeroTensor, b2 := zeroTensor }

/-- The zero tensor contributes nothing to the squared norm. -/
theorem tensorNormSq_zero (n : ℕ) : tensorNormSq zeroTensor n = 0 := by
  simp [tensorNormSq, zeroTensor]

/-- The squared global norm of the witness gradient set is 4. -/
theorem gradNormSq_gradBig : gradNormSq gradBig = 4 := by
  rw [gradNormSq]
  have h1 : tensorNormSq gradBig.l1 (256 * 256) = 4 := by
    rw [tensorNormSq]
    rw [Finset.sum_eq_single_of_mem 0 (Finset.mem_range.mpr (by norm_num))]
    · show (if (0 : ℕ) = 0 then (2 : ℝ) else 0) * (if (0 : ℕ) = 0 then (2 : ℝ) else 0) = 4
      norm_num
    · intro b _ hb
      show (if b = 0 then (2 : ℝ) else 0) * (if b = 0 then (2 : ℝ) else 0) = 0
      rw [if_neg hb]
      exact mul_zero 0
  have h2 : gradBig.b1 = zeroTensor := rfl
  have h3 : gradBig.l2 = zeroTensor := rfl
  have h4 : gradBig.b2 = zeroTensor := rfl
  rw [h1, h2, h3, h4]
  simp [tensorNormSq_zero]

/-- The global norm of the witness gradient set is 2. -/
theorem gradNorm_gradBig : gradNorm gradBig = 2 := by
  rw [gradNorm, gradNormSq_gradBig]
  rw [show (4 : ℝ) = 2 ^ 2 by norm_num]
  exact Real.sqrt_sq (by norm_num)

/-- Concrete check of C5: the witness gradient set has norm 2 > 1 and its
moment update uses the entry divided by that norm. -/
theorem clip_scales_gradients_witness :
    1 < gradNorm gradBig ∧
    ((adamUpdate auto0 gradBig).stateM.tensor 0) 0
        = B1 * ((auto0.stateM.tensor 0) 0)
            + (1 - B1) * ((gradBig.tensor 0) 0 * (1 / gradNorm gradBig)) := by
  have h : 1 < gradNorm gradBig := by
    rw [gradNorm_gradBig]
    norm_num
  exact ⟨h, ((clip_scales_gradients gradBig auto0 0 0).1 h).1⟩

/-- The optimizer update always advances the per-autoencoder counter by
one. -/
theorem adamUpdate_iteration (a : Auto) (g : Params) :
    (adamUpdate a g).iteration = a.iteration + 1 := rfl

/-- C6: the bias-correction factors of a training update are
`B1^(s+1)` and `B2^(s+1)` where `s` is the step counter of the selected
autoencoder — not the global iteration counter, on which the updated
autoencoders do not depend at all; a power evaluating to NaN or an
infinity is clamped to 0; and exactly the selected autoencoder's counter
is incremented, all the others keeping theirs, so counters evolve
independently. -/
theorem bias_correction_per_auto (engine : Engine) (st : TrainState) (v : Byte) :
    (goClamp (GoF.nan : GoF ℝ) = 0 ∧ goClamp (GoF.pinf : GoF ℝ) = 0 ∧
      goClamp (GoF.ninf : GoF ℝ) = 0) ∧
    (∀ n : ℕ, powClamped B1 n = B1 ^ n ∧ powClamped B2 n = B2 ^ n) ∧
    (∀ (a : Auto) (g : Params) (i : ℕ),
      ((adamUpdate a g).x.l1) i
        = (adamTensorX (powClamped B1 (a.iteration + 1))
            (powClamped B2 (a.iteration + 1)) (gradScaling g)
            a.x.l1 a.stateM.l1 a.stateV.l1 g.l1) i) ∧
    ((trainStep engine st v).2 = none →
      ((trainStep engine st v).1.autos v).iteration = (st.autos v).iteration + 1 ∧
      ∀ j : Byte, j ≠ v →
        ((trainStep engine st v).1.autos j).iteration = (st.autos j).iteration) ∧
    (∀ n : ℕ, ((trainStep engine { st with iteration := n } v).1).autos
        = (trainStep engine st v).1.autos) := by
  refine ⟨⟨rfl, rfl, rfl⟩, fun n => ⟨rfl, rfl⟩, fun a g i => rfl, ?_, ?_⟩
  · intro h
    cases hb : isBad (engine (st.autos v).x (featInput st)).1 with
    | false =>
      rw [trainStep_ok engine st v hb]
      constructor
      · simp [Function.update_same, adamUpdate_iteration]
      · intro j hj
        simp [Function.update_noteq hj]
    | true =>
      rw [trainStep_abort engine st v hb] at h
      exact absurd h (by simp)
  · intro n
    have hb2 : isBad (engine (({ st with iteration := n } : TrainState).autos v).x
        (featInput { st with iteration := n })).1
        = isBad (engine (st.autos v).x (featInput st)).1 := rfl
    cases hb : isBad (engine (st.autos v).x (featInput st)).1 with
    | false =>
      rw [trainStep_ok engine { st with iteration := n } v (hb2.trans hb),
        trainStep_ok engine st v hb]
      rfl
    | true =>
      rw [trainStep_abort engine { st with iteration := n } v (hb2.trans hb),
        trainStep_abort engine st v hb]

/-- An engine returning a finite zero loss and zero gradients. -/
noncomputable def engineZero : Engine := fun _ _ => (GoF.val 0, zeroParams)

/-- An engine returning a NaN loss. -/
noncomputable def engineNaN : Engine := fun _ _ => (GoF.nan, zeroParams)

/-- A training-start state: fresh autoencoders, all-zero context, empty
tables, zero global iteration. -/
noncomputable def st0 : TrainState :=
  { autos := fun _ => auto0, markov := msZero, model := emptyModel, iteration := 0 }

/-- Concrete check of C6: with a finite loss, the selected autoencoder's
counter goes from 0 to 1. -/
theorem bias_correction_per_auto_witness :
    (trainStep engineZero st0 0).2 = none ∧
    ((trainStep engineZero st0 0).1.autos 0).iteration = (st0.autos 0).iteration + 1 := by
  have hb : isBad (engineZero (st0.autos 0).x (featInput st0)).1 = false := rfl
  have h2 : (trainStep engineZero st0 0).2 = none := by
    rw [trainStep_ok engineZero st0 0 hb]
  exact ⟨h2, ((bias_correction_per_auto engineZero st0 0).2.2.2.1 h2).1⟩

/-- C7: when the engine reports a NaN or infinite loss at a position, the
training run aborts immediately with the report pair (iteration number,
loss value): the returned state is exactly the pre-step state — every
autoencoder's weights, moments, and counters untouched — and none of the
remaining positions are processed. -/
theorem nan_loss_aborts (engine : Engine) (st : TrainState) (v : Byte)
    (rest : List Byte) (l : GoF ℝ) (g : Params)
    (hengine : engine (st.autos v).x (featInput st) = (l, g))
    (hbad : isBad l = true) :
    trainLoop engine (v :: rest) st = (st, some (st.iteration, l)) := by
  have hb : isBad (engine (st.autos v).x (featInput st)).1 = true := by
    rw [hengine]
    exact hbad
  have hstep : trainStep engine st v = (st, some (st.iteration, l)) := by
    rw [trainStep_abort engine st v hb, hengine]
  rw [trainLoop, hstep]

/-- Concrete check of C7: a NaN-loss engine aborts the loop on the first
position with the initial state intact and the second position
unprocessed. -/
theorem nan_loss_aborts_witness :
    engineNaN (st0.autos 0).x (featInput st0) = (GoF.nan, zeroParams) ∧
    isBad (GoF.nan : GoF ℝ) = true ∧
    trainLoop engineNaN [0, 1] st0 = (st0, some (st0.iteration, GoF.nan)) := by
  refine ⟨rfl, rfl, ?_⟩
  exact nan_loss_aborts engineNaN st0 0 [1] GoF.nan zeroParams rfl rfl

/-- C9: a training step mutates only the autoencoder indexed by the
current byte's value: every other autoencoder (weights, biases, moments,
and counter alike) and the Markov frequency tables are unchanged. -/
theorem train_touches_only_selected (engine : Engine) (st : TrainState)
    (v j : Byte) (hj : j ≠ v) :
    (trainStep engine st v).1.autos j = st.autos j ∧
    (trainStep engine st v).1.model = st.model := by
  cases hb : isBad (engine (st.autos v).x (featInput st)).1 with
  | false =>
    rw [trainStep_ok engine st v hb]
    exact ⟨Function.update_noteq hj _ _, rfl⟩
  | true =>
    rw [trainStep_abort engine st v hb]
    exact ⟨rfl, rfl⟩

/-- Concrete check of C9: training byte 0 leaves autoencoder 1 and the
tables unchanged. -/
theorem train_touches_only_selected_witness :
    (1 : Byte) ≠ 0 ∧
    ((trainStep engineZero st0 0).1.autos 1 = st0.autos 1 ∧
      (trainStep engineZero st0 0).1.model = st0.model) :=
  ⟨by decide, train_touches_only_selected engineZero st0 0 1 (by decide)⟩

/-- C1 counterexample: at a position where `Lookup` returns the nil
sentinel, the training step is NOT skipped — the loop body ranges over
the nil vector (building an empty input), runs the forward/gradient pass
through the engine, and applies the optimizer update: concretely, the
selected autoencoder's step counter and the global iteration counter both
advance from 0 to 1, contradicting the claim that no optimizer update
happens at such a position. -/
theorem nil_feature_trains_cx :
    Lookup st0.markov st0.model = none ∧
    ((trainStep engineZero st0 0).1.autos 0).iteration = 1 ∧
    (trainStep engineZero st0 0).1.iteration = 1 := by
  have hb : isBad (engineZero (st0.autos 0).x (featInput st0)).1 = false := rfl
  refine ⟨rfl, ?_, ?_⟩
  · rw [trainStep_ok engineZero st0 0 hb]
    simp [Function.update_same, adamUpdate_iteration]
    rfl
  · rw [trainStep_ok engineZero st0 0 hb]
    rfl

/-- C1 (amended): when `Lookup` returns the nil sentinel, the training
loop body builds an empty input vector and still performs the training
step unconditionally — when the engine's loss is finite, the selected
autoencoder receives an optimizer update (its step counter increments)
and the global iteration advances; the context is advanced with the
observed byte and the loop continues. -/
theorem nil_feature_still_trains (engine : Engine) (st : TrainState) (v : Byte)
    (hnil : Lookup st.markov st.model = none) :
    featInput st = [] ∧
    ((trainStep engine st v).2 = none →
      ((trainStep engine st v).1.autos v).iteration = (st.autos v).iteration + 1 ∧
      (trainStep engine st v).1.markov = Iterate st.markov v ∧
      (trainStep engine st v).1.iteration = st.iteration + 1) := by
  constructor
  · rw [featInput, hnil]
    rfl
  · intro h
    cases hb : isBad (engine (st.autos v).x (featInput st)).1 with
    | false =>
      rw [trainStep_ok engine st v hb]
      refine ⟨?_, rfl, rfl⟩
      simp [Function.update_same, adamUpdate_iteration]
    | true =>
      rw [trainStep_abort engine st v hb] at h
      exact absurd h (by simp)

/-- Concrete check of the amended C1: lookup fails, yet the step for byte
1 updates autoencoder 1's counter. -/
theorem nil_feature_still_trains_witness :
    Lookup st0.markov st0.model = none ∧
    (trainStep engineZero st0 1).2 = none ∧
    (featInput st0 = [] ∧
      ((trainStep engineZero st0 1).1.autos 1).iteration = (st0.autos 1).iteration + 1) := by
  have hb : isBad (engineZero (st0.autos 1).x (featInput st0)).1 = false := rfl
  have h2 : (trainStep engineZero st0 1).2 = none := by
    rw [trainStep_ok engineZero st0 1 hb]
  have h := nil_feature_still_trains engineZero st0 1 rfl
  exact ⟨rfl, h2, h.1, (h.2 h2).1⟩
